import Mathlib

/-!
Verification of the line-oriented assignment-repair scanner
(`fix_malformed_assignments.py`) of the luxxle-browser maintenance scripts.

The scanner walks a file's lines once and repairs three malformed
variable-assignment shapes:
* Pattern A: `name = [` / `]` / dangling value  (three lines → one line);
* Pattern B: marker comment / `name = [` / `]` / dangling value (four → one);
* Pattern C: an incomplete `name =` line followed by a dangling value
  (pops the already-emitted incomplete line and emits the completed one).

Lines are modelled as lists of characters (Python strings); the regexes of
the source are modelled as deterministic character-class parsers, which is
exact here because the involved character classes are pairwise disjoint.
-/

set_option maxHeartbeats 1000000

namespace AssignRepair

/-- A line of text as read by Python `readlines` (usually ends with a newline). -/
abbrev LineT := List Char

/-- Character list of a string literal. -/
def lc (s : String) : LineT := s.data

/-- Whitespace characters of Python `str.strip()` and of the regex class. -/
def isPySpace (c : Char) : Bool :=
  c == ' ' || c == '\t' || c == '\n' || c == '\r' || c == Char.ofNat 11 || c == Char.ofNat 12

/-- Leading identifier character `[a-zA-Z_]`. -/
def isIdentStart (c : Char) : Bool := c.isAlpha || c == '_'

/-- Identifier continuation character `[a-zA-Z0-9_]`. -/
def isIdentChar (c : Char) : Bool := c.isAlphanum || c == '_'

/-- Python `str.strip()`: drop leading and trailing whitespace. -/
def stripL (l : LineT) : LineT :=
  ((l.dropWhile isPySpace).reverse.dropWhile isPySpace).reverse

/-- Does `l` start with the text `p` (Python `str.startswith`)? -/
def startsWithL : LineT → LineT → Bool
  | _, [] => true
  | [], _ :: _ => false
  | c :: l, d :: p => c == d && startsWithL l p

/-- Is the first character of `m` one of `ks`? -/
def keyHead (ks : List Char) (m : LineT) : Bool :=
  match m with
  | c :: _ => ks.contains c
  | [] => false

/-- Model of anchored matching of an identifier, optional spaces, then one of
the characters of `ks`: the common core of the source's regexes
`^[a-zA-Z_][a-zA-Z0-9_]*\s*=` and `^[a-zA-Z_][a-zA-Z0-9_]*\s*[=+]`.
The greedy regex scan is deterministic because the identifier, whitespace
and key character classes are pairwise disjoint. -/
def identThen (ks : List Char) (l : LineT) : Bool :=
  match l with
  | [] => false
  | c :: r => isIdentStart c && keyHead ks ((r.dropWhile isIdentChar).dropWhile isPySpace)

/-- `re.match(r'^[a-zA-Z_][a-zA-Z0-9_]*\s*=', l)` as a recognizer. -/
def assignStartTest (l : LineT) : Bool := identThen ['='] l

/-- `re.match(r'^[a-zA-Z_][a-zA-Z0-9_]*\s*[=+]', l)` as a recognizer. -/
def pat3Test (l : LineT) : Bool := identThen ['=', '+'] l

/-- `re.match(r'^(\s*)([a-zA-Z_][a-zA-Z0-9_]*)\s*=\s*\[\s*$', l)`: the
empty-array opener line; on success returns the two capture groups
(indentation, variable name). -/
def openerParse (l : LineT) : Option (LineT × LineT) :=
  match l.dropWhile isPySpace with
  | [] => none
  | c :: r =>
    if isIdentStart c then
      match (r.dropWhile isIdentChar).dropWhile isPySpace with
      | '=' :: r2 =>
        match r2.dropWhile isPySpace with
        | '[' :: r3 =>
          if (r3.dropWhile isPySpace).isEmpty then
            some (l.takeWhile isPySpace, c :: r.takeWhile isIdentChar)
          else none
        | _ => none
      | _ => none
    else none

/-- `re.match(r'^(\s*)([a-zA-Z_][a-zA-Z0-9_]*)\s*=\s*$', l)`: an incomplete
assignment with nothing after the `=`; returns the capture groups. -/
def incompleteParse (l : LineT) : Option (LineT × LineT) :=
  match l.dropWhile isPySpace with
  | [] => none
  | c :: r =>
    if isIdentStart c then
      match (r.dropWhile isIdentChar).dropWhile isPySpace with
      | '=' :: r2 =>
        if (r2.dropWhile isPySpace).isEmpty then
          some (l.takeWhile isPySpace, c :: r.takeWhile isIdentChar)
        else none
      | _ => none
    else none

/-- The marker comment emitted by the earlier incomplete-assignments pass. -/
def markerData : LineT :=
  lc "# Initialize as empty array since Brave components have been removed"

/-- The dangling-value admission check shared by Patterns A and B (source
lines 42-46 and 82-86): non-empty, not a comment, not starting with `if` or
`foreach`, and not an assignment. -/
def danglingOk (d : LineT) : Bool :=
  !(decide (d = [])) && !startsWithL d (lc "#") && !startsWithL d (lc "if") &&
    !startsWithL d (lc "foreach") && !assignStartTest d

/-- The Pattern C admission check on the stripped current line (source lines
122-130, without the `i > 0` clause): non-empty, not a comment, not `if` /
`foreach` / `declare_args`, not a brace line, and not matching
`^[a-zA-Z_][a-zA-Z0-9_]*\s*[=+]`. -/
def dangling3Ok (st : LineT) : Bool :=
  !(decide (st = [])) && !startsWithL st (lc "#") && !startsWithL st (lc "if") &&
    !startsWithL st (lc "foreach") && !startsWithL st (lc "declare_args") &&
    !startsWithL st [Char.ofNat 125] && !startsWithL st [Char.ofNat 123] &&
    !pat3Test st

/-- `f"{indent}{var_name} = {value}\n"`. -/
def mkAssign (ind nm value : LineT) : LineT :=
  ind ++ nm ++ lc " = " ++ value ++ ['\n']

/-- Value classification of Patterns A and C: an array or quoted literal is
passed through verbatim, anything else is wrapped in double quotes. -/
def plainValue (d : LineT) : LineT :=
  if startsWithL d (lc "[") || startsWithL d (lc "\"") then d
  else '"' :: (d ++ ['"'])

/-- Does `d` contain one of the expression-like characters `+ ( ) $ /`? -/
def hasExprChar (d : LineT) : Bool :=
  d.any (fun c => c == '+' || c == '(' || c == ')' || c == '$' || c == '/')

/-- Python `d.replace('_', '').replace('.', '').isalnum()`. -/
def alnumNoUnderscoreDot (d : LineT) : Bool :=
  let f := d.filter (fun c => !(c == '_' || c == '.'))
  !(decide (f = [])) && f.all Char.isAlphanum

/-- Value classification of Pattern B (source lines 96-112): a bracketed
value is assigned directly; a quoted value is wrapped in a one-element array
literal; an expression-like or reference-like token is assigned directly;
anything else is double-quoted. -/
def arrayValue (d : LineT) : LineT :=
  if startsWithL d (lc "\"") || startsWithL d (lc "[") then
    if startsWithL d (lc "[") then d
    else '[' :: ' ' :: (d ++ [' ', ']'])
  else
    if hasExprChar d || alnumNoUnderscoreDot d then d
    else '"' :: (d ++ ['"'])

/-- The scanner's state: current input index, output lines built so far,
and whether any pattern has fired. -/
structure ScanState where
  i : Nat
  out : List LineT
  modified : Bool
deriving DecidableEq, Repr

/-- Pattern A recognizer at position `i` (source lines 35-52): the current
line is an empty-array opener, the next line strips to `]`, and the line
after that is an admissible dangling value.  Returns the indentation, the
variable name, and the stripped dangling value. -/
def patternAParse (lines : List LineT) (i : Nat) : Option (LineT × LineT × LineT) :=
  if decide (i + 1 < lines.length) && decide (stripL (lines.getD (i + 1) []) = lc "]") &&
      decide (i + 2 < lines.length) && danglingOk (stripL (lines.getD (i + 2) [])) then
    (openerParse (lines.getD i [])).map (fun p => (p.1, p.2, stripL (lines.getD (i + 2) [])))
  else none

/-- Pattern B recognizer at position `i` (source lines 73-93): the current
line strips to the marker comment, followed by an empty-array opener, a `]`
line, and an admissible dangling value. -/
def patternBParse (lines : List LineT) (i : Nat) : Option (LineT × LineT × LineT) :=
  if startsWithL (stripL (lines.getD i [])) markerData &&
      decide (i + 1 < lines.length) && decide (i + 2 < lines.length) &&
      decide (stripL (lines.getD (i + 2) []) = lc "]") &&
      decide (i + 3 < lines.length) && danglingOk (stripL (lines.getD (i + 3) [])) then
    (openerParse (lines.getD (i + 1) [])).map (fun p => (p.1, p.2, stripL (lines.getD (i + 3) [])))
  else none

/-- One iteration of the scanner's while loop (source lines 28-164): try
Pattern A, then Pattern B, then Pattern C, else copy the line verbatim.
The look-back loop of the `prev_line == ']'` branch inspects earlier lines
but never changes any state, so that branch copies the line verbatim. -/
def scanStep (lines : List LineT) (s : ScanState) : ScanState :=
  match patternAParse lines s.i with
  | some (ind, nm, d) => ⟨s.i + 3, s.out ++ [mkAssign ind nm (plainValue d)], true⟩
  | none =>
    match patternBParse lines s.i with
    | some (ind, nm, d) => ⟨s.i + 4, s.out ++ [mkAssign ind nm (arrayValue d)], true⟩
    | none =>
      let line := lines.getD s.i []
      let st := stripL line
      if dangling3Ok st && decide (0 < s.i) then
        if decide (stripL (lines.getD (s.i - 1) []) = lc "]") && decide (1 < s.i) then
          ⟨s.i + 1, s.out ++ [line], s.modified⟩
        else
          match incompleteParse (stripL (lines.getD (s.i - 1) [])) with
          | some (ind, nm) =>
            ⟨s.i + 1, s.out.dropLast ++ [mkAssign ind nm (plainValue st)], true⟩
          | none => ⟨s.i + 1, s.out ++ [line], s.modified⟩
      else ⟨s.i + 1, s.out ++ [line], s.modified⟩

/-- Run the scanner for at most `fuel` iterations (each iteration advances
the index by at least one, so `lines.length` iterations always finish). -/
def scanRun (lines : List LineT) : Nat → ScanState → ScanState
  | 0, s => s
  | fuel + 1, s =>
    if s.i < lines.length then scanRun lines fuel (scanStep lines s) else s

/-- The whole scan of a file's lines, from the initial state. -/
def fixScan (lines : List LineT) : ScanState :=
  scanRun lines lines.length ⟨0, [], false⟩

/-- `fix_malformed_assignments_in_file`, with the I/O at the boundary made
explicit: the read result is `none` when reading raised (source lines
17-22), in which case the function reports failure and writes nothing;
otherwise the scan runs and the file is rewritten exactly when some pattern
fired (source lines 166-177; a successful write is assumed). The first
component is the content written back, `none` when no write happens. -/
def fix_malformed_assignments_in_file (readResult : Option (List LineT)) :
    Option (List LineT) × Bool :=
  match readResult with
  | none => (none, false)
  | some lines =>
    let r := fixScan lines
    if r.modified then (some r.out, true) else (none, false)

/-- `main`'s batch loop (source lines 201-205): every file is processed,
regardless of the outcomes of the previous files. -/
def processFiles (reads : List (Option (List LineT))) : List (Option (List LineT) × Bool) :=
  reads.map fix_malformed_assignments_in_file

/-- Does one of the three patterns fire at input position `i`?  (The third
disjunct is exactly the condition under which the Pattern C branch of
`scanStep` rewrites the output instead of copying.) -/
def firesAt (lines : List LineT) (i : Nat) : Bool :=
  (patternAParse lines i).isSome || (patternBParse lines i).isSome ||
    (dangling3Ok (stripL (lines.getD i [])) && decide (0 < i) &&
      !(decide (stripL (lines.getD (i - 1) []) = lc "]") && decide (1 < i)) &&
      (incompleteParse (stripL (lines.getD (i - 1) []))).isSome)

/-- The states the scanner's loop passes through on input `lines`. -/
inductive Reach (lines : List LineT) : ScanState → Prop
  | init : Reach lines ⟨0, [], false⟩
  | next {s : ScanState} : Reach lines s → s.i < lines.length → Reach lines (scanStep lines s)

/-- Accounting segment: one step of the scan, recording which input
positions it consumed and which output lines it emitted. -/
structure Seg where
  idxs : List Nat
  emitted : List LineT
deriving DecidableEq, Repr

/-- State of the accounting-instrumented scanner. -/
structure IState where
  i : Nat
  segs : List Seg
  modified : Bool
deriving DecidableEq, Repr

/-- The instrumented scanner step: identical branching to `scanStep`, but
recording, for every step, the consumed input positions next to the emitted
output lines.  A Pattern C fire pops the previous segment (the verbatim
copy of the incomplete-assignment line) and replaces it by a segment that
consumes both that line and the dangling line. -/
def stepI (lines : List LineT) (s : IState) : IState :=
  match patternAParse lines s.i with
  | some (ind, nm, d) =>
    ⟨s.i + 3, s.segs ++ [⟨[s.i, s.i + 1, s.i + 2], [mkAssign ind nm (plainValue d)]⟩], true⟩
  | none =>
    match patternBParse lines s.i with
    | some (ind, nm, d) =>
      ⟨s.i + 4, s.segs ++ [⟨[s.i, s.i + 1, s.i + 2, s.i + 3], [mkAssign ind nm (arrayValue d)]⟩], true⟩
    | none =>
      let line := lines.getD s.i []
      let st := stripL line
      if dangling3Ok st && decide (0 < s.i) then
        if decide (stripL (lines.getD (s.i - 1) []) = lc "]") && decide (1 < s.i) then
          ⟨s.i + 1, s.segs ++ [⟨[s.i], [line]⟩], s.modified⟩
        else
          match incompleteParse (stripL (lines.getD (s.i - 1) [])) with
          | some (ind, nm) =>
            ⟨s.i + 1, s.segs.dropLast ++ [⟨[s.i - 1, s.i], [mkAssign ind nm (plainValue st)]⟩], true⟩
          | none => ⟨s.i + 1, s.segs ++ [⟨[s.i], [line]⟩], s.modified⟩
      else ⟨s.i + 1, s.segs ++ [⟨[s.i], [line]⟩], s.modified⟩

/-- Run the instrumented scanner for at most `fuel` iterations. -/
def runI (lines : List LineT) : Nat → IState → IState
  | 0, s => s
  | fuel + 1, s =>
    if s.i < lines.length then runI lines fuel (stepI lines s) else s

/-- The whole instrumented scan of a file's lines. -/
def fixScanI (lines : List LineT) : IState :=
  runI lines lines.length ⟨0, [], false⟩

/-- All input positions consumed, in scan order. -/
def joinIdxs (segs : List Seg) : List Nat := (segs.map Seg.idxs).flatten

/-- All output lines emitted, in scan order. -/
def joinOut (segs : List Seg) : List LineT := (segs.map Seg.emitted).flatten

/-- Projection of an instrumented state onto a plain scanner state. -/
def projI (s : IState) : ScanState := ⟨s.i, joinOut s.segs, s.modified⟩

/-- A well-formed accounting segment: either the verbatim copy of a single
input line, or a pattern fire consuming two, three or four input lines and
emitting exactly one assignment line. -/
def SegOK (lines : List LineT) (seg : Seg) : Prop :=
  (∃ j, seg = ⟨[j], [lines.getD j []]⟩) ∨
    (2 ≤ seg.idxs.length ∧ seg.idxs.length ≤ 4 ∧ seg.emitted.length = 1)

/-- Invariant of the instrumented scan: positions `0..i-1` are accounted
for exactly once and in order; when the previous input line is an
incomplete assignment, the last segment is its verbatim copy (so a Pattern
C pop removes exactly that line); and every segment is well formed. -/
def IInv (lines : List LineT) (s : IState) : Prop :=
  joinIdxs s.segs = List.range s.i ∧
    (0 < s.i → (incompleteParse (stripL (lines.getD (s.i - 1) []))).isSome = true →
      s.segs.getLast? = some ⟨[s.i - 1], [lines.getD (s.i - 1) []]⟩) ∧
    (∀ seg ∈ s.segs, SegOK lines seg)

/-- Right strip only: drop trailing whitespace. -/
def rstripSp (l : LineT) : LineT := (l.reverse.dropWhile isPySpace).reverse

theorem stripL_eq_rstrip (l : LineT) : stripL l = rstripSp (l.dropWhile isPySpace) := rfl

theorem space_not_identStart {c : Char} (h : isPySpace c = true) : isIdentStart c = false := by
  simp only [isPySpace, Bool.or_eq_true, beq_iff_eq] at h
  rcases h with ((((h | h) | h) | h) | h) | h <;> subst h <;> decide

theorem space_not_identChar {c : Char} (h : isPySpace c = true) : isIdentChar c = false := by
  simp only [isPySpace, Bool.or_eq_true, beq_iff_eq] at h
  rcases h with ((((h | h) | h) | h) | h) | h <;> subst h <;> decide

theorem identStart_not_space {c : Char} (h : isIdentStart c = true) : isPySpace c = false := by
  cases hs : isPySpace c with
  | false => rfl
  | true => rw [space_not_identStart hs] at h; cases h

theorem dropWhile_append_all {p : Char → Bool} {a b : LineT}
    (h : ∀ x ∈ a, p x = true) : (a ++ b).dropWhile p = b.dropWhile p := by
  induction a with
  | nil => rfl
  | cons c a ih =>
    rw [List.cons_append, List.dropWhile_cons_of_pos (h c (by simp))]
    exact ih (fun x hx => h x (by simp [hx]))

theorem dropWhile_append_exists {p : Char → Bool} {a b : LineT}
    (h : ∃ x ∈ a, p x = false) : (a ++ b).dropWhile p = a.dropWhile p ++ b := by
  induction a with
  | nil => simp at h
  | cons c a ih =>
    cases hc : p c with
    | false => rw [List.cons_append, List.dropWhile_cons_of_neg (by simp [hc]),
        List.dropWhile_cons_of_neg (by simp [hc]), List.cons_append]
    | true =>
      rw [List.cons_append, List.dropWhile_cons_of_pos hc, List.dropWhile_cons_of_pos hc]
      apply ih
      rcases h with ⟨x, hx, hpx⟩
      rcases List.mem_cons.mp hx with rfl | hx'
      · rw [hc] at hpx; cases hpx
      · exact ⟨x, hx', hpx⟩

theorem dropWhile_head_false {p : Char → Bool} {l r : LineT} {c : Char}
    (h : l.dropWhile p = c :: r) : p c = false := by
  induction l with
  | nil => cases h
  | cons d l ih =>
    cases hd : p d with
    | false => rw [List.dropWhile_cons_of_neg (by simp [hd])] at h
               cases h; exact hd
    | true => rw [List.dropWhile_cons_of_pos hd] at h; exact ih h

theorem rstrip_decomp (l : LineT) :
    ∃ t, l = rstripSp l ++ t ∧ ∀ x ∈ t, isPySpace x = true := by
  refine ⟨(l.reverse.takeWhile isPySpace).reverse, ?_, ?_⟩
  · conv_lhs => rw [← l.reverse_reverse, ← List.takeWhile_append_dropWhile (p := isPySpace)
      (l := l.reverse)]
    rw [List.reverse_append]; rfl
  · intro x hx
    exact List.mem_takeWhile_imp (List.mem_reverse.mp hx)

theorem rstrip_append_exists {a b : LineT} (h : ∃ x ∈ b, isPySpace x = false) :
    rstripSp (a ++ b) = a ++ rstripSp b := by
  unfold rstripSp
  rw [List.reverse_append, dropWhile_append_exists (by
    rcases h with ⟨x, hx, hpx⟩; exact ⟨x, List.mem_reverse.mpr hx, hpx⟩),
    List.reverse_append, List.reverse_reverse]

theorem rstrip_cons_not {c : Char} {l : LineT} (h : isPySpace c = false) :
    rstripSp (c :: l) = c :: rstripSp l := by
  by_cases hl : ∃ x ∈ l, isPySpace x = false
  · have : rstripSp ([c] ++ l) = [c] ++ rstripSp l := rstrip_append_exists hl
    simpa using this
  · push_neg at hl
    have hall : ∀ x ∈ l, isPySpace x = true := by
      intro x hx
      cases hp : isPySpace x with
      | false => exact absurd hp (hl x hx)
      | true => rfl
    have h1 : rstripSp l = [] := by
      unfold rstripSp
      rw [List.dropWhile_eq_nil_iff.mpr (fun x hx => hall x (List.mem_reverse.mp hx))]
      rfl
    have h2 : rstripSp (c :: l) = [c] := by
      unfold rstripSp
      rw [show (c :: l).reverse = l.reverse ++ [c] by simp,
        dropWhile_append_all (fun x hx => hall x (List.mem_reverse.mp hx)),
        List.dropWhile_cons_of_neg (by simp [h])]
      simp
    rw [h1, h2]

theorem strip_head_not_space {l r : LineT} {c : Char} (h : stripL l = c :: r) :
    isPySpace c = false := by
  rw [stripL_eq_rstrip] at h
  obtain ⟨t, ht, -⟩ := rstrip_decomp (l.dropWhile isPySpace)
  rw [h] at ht
  exact dropWhile_head_false ht

theorem strip_dropWhile_self {l : LineT} : (stripL l).dropWhile isPySpace = stripL l := by
  cases h : stripL l with
  | nil => rfl
  | cons c r => rw [List.dropWhile_cons_of_neg (by simp [strip_head_not_space h])]

theorem identThen_true_of {ks : List Char} {c : Char} {a sp t : LineT}
    (hc : isIdentStart c = true) (ha : ∀ x ∈ a, isIdentChar x = true)
    (hsp : ∀ x ∈ sp, isPySpace x = true) (hk : ks.contains '=' = true) :
    identThen ks (c :: (a ++ (sp ++ '=' :: t))) = true := by
  have hrest : (((a ++ (sp ++ '=' :: t)).dropWhile isIdentChar).dropWhile isPySpace)
      = '=' :: t := by
    rw [dropWhile_append_all ha]
    cases sp with
    | nil =>
      rw [List.nil_append, List.dropWhile_cons_of_neg (by decide),
        List.dropWhile_cons_of_neg (by decide)]
    | cons s sp' =>
      have hs : isPySpace s = true := hsp s (by simp)
      rw [List.cons_append,
        List.dropWhile_cons_of_neg (by simp [space_not_identChar hs]),
        List.dropWhile_cons_of_pos hs,
        dropWhile_append_all (fun x hx => hsp x (by simp [hx])),
        List.dropWhile_cons_of_neg (by decide)]
  show (isIdentStart c &&
    keyHead ks (((a ++ (sp ++ '=' :: t)).dropWhile isIdentChar).dropWhile isPySpace)) = true
  rw [hc, hrest]
  show keyHead ks ('=' :: t) = true
  show ks.contains '=' = true
  exact hk

theorem opener_strip {l ind nm : LineT} (h : openerParse l = some (ind, nm)) :
    ∃ c a sp t, stripL l = c :: (a ++ (sp ++ '=' :: t)) ∧ isIdentStart c = true ∧
      (∀ x ∈ a, isIdentChar x = true) ∧ (∀ x ∈ sp, isPySpace x = true) := by
  unfold openerParse at h
  split at h
  · exact Option.noConfusion h
  · rename_i c r hm
    split at h
    · rename_i hc
      split at h
      · rename_i r2 hd
        split at h
        · rename_i r3 hd2
          split at h
          swap
          · exact Option.noConfusion h
          refine ⟨c, r.takeWhile isIdentChar,
            (r.dropWhile isIdentChar).takeWhile isPySpace, rstripSp r2,
            ?_, hc, fun x hx => List.mem_takeWhile_imp hx,
            fun x hx => List.mem_takeWhile_imp hx⟩
          have hr : r = r.takeWhile isIdentChar ++ r.dropWhile isIdentChar :=
            (List.takeWhile_append_dropWhile (p := isIdentChar) (l := r)).symm
          have hrest2 : r.dropWhile isIdentChar
              = (r.dropWhile isIdentChar).takeWhile isPySpace ++ '=' :: r2 := by
            conv_lhs => rw [← List.takeWhile_append_dropWhile
              (p := isPySpace) (l := r.dropWhile isIdentChar)]
            rw [hd]
          have hnsp : ∃ x ∈ '=' :: r2, isPySpace x = false := by
            refine ⟨'[', ?_, by decide⟩
            have h4 : '[' ∈ r2.dropWhile isPySpace := by rw [hd2]; simp
            exact List.mem_cons_of_mem _ ((r2.dropWhile_sublist isPySpace).mem h4)
          rw [stripL_eq_rstrip, hm, rstrip_cons_not (identStart_not_space hc)]
          conv_lhs => rw [hr, hrest2, ← List.append_assoc]
          rw [rstrip_append_exists (by
            rcases hnsp with ⟨x, hx, hpx⟩
            exact ⟨x, by simp [hx], hpx⟩)]
          rw [rstrip_cons_not (by decide), List.append_assoc]
        · exact Option.noConfusion h
      · exact Option.noConfusion h
    · exact Option.noConfusion h

theorem opener_pat3 {l ind nm : LineT} (h : openerParse l = some (ind, nm)) :
    pat3Test (stripL l) = true := by
  obtain ⟨c, a, sp, t, hs, hc, ha, hsp⟩ := opener_strip h
  rw [hs]
  exact identThen_true_of hc ha hsp (by decide)

theorem opener_strip_head {l ind nm : LineT} (h : openerParse l = some (ind, nm)) :
    ∃ c r, stripL l = c :: r ∧ isIdentStart c = true := by
  obtain ⟨c, a, sp, t, hs, hc, -, -⟩ := opener_strip h
  exact ⟨c, _, hs, hc⟩

theorem startsWithL_nil (l : LineT) : startsWithL l [] = true := by
  cases l <;> rfl

theorem incomplete_assignStart {l ind nm : LineT}
    (h : incompleteParse (stripL l) = some (ind, nm)) :
    assignStartTest (stripL l) = true := by
  unfold incompleteParse at h
  rw [strip_dropWhile_self] at h
  split at h
  · exact Option.noConfusion h
  · rename_i c r hm
    split at h
    · rename_i hc
      split at h
      · rename_i r2 hd
        rw [hm]
        show (isIdentStart c &&
          keyHead ['='] ((r.dropWhile isIdentChar).dropWhile isPySpace)) = true
        rw [hc, hd]
        show (true && ['='].contains '=') = true
        decide
      · exact Option.noConfusion h
    · exact Option.noConfusion h

theorem assign_imp_pat3 {d : LineT} (h : assignStartTest d = true) : pat3Test d = true := by
  cases d with
  | nil => exact absurd h (by decide)
  | cons c r =>
    have h' : (isIdentStart c &&
      keyHead ['='] ((r.dropWhile isIdentChar).dropWhile isPySpace)) = true := h
    show (isIdentStart c &&
      keyHead ['=', '+'] ((r.dropWhile isIdentChar).dropWhile isPySpace)) = true
    rw [Bool.and_eq_true] at h'
    rw [Bool.and_eq_true]
    refine ⟨h'.1, ?_⟩
    have h2 := h'.2
    cases hd : (r.dropWhile isIdentChar).dropWhile isPySpace with
    | nil => rw [hd] at h2; exact absurd h2 (by decide)
    | cons e r2 =>
      rw [hd] at h2
      have he : (e == '=') = true := by
        have h3 : (e == '=' || false) = true := h2
        simpa using h3
      have he' : e = '=' := beq_iff_eq.mp he
      subst he'
      show (['=', '+'].contains '=') = true
      decide

theorem startsWith_hash_of_marker {st : LineT} (h : startsWithL st markerData = true) :
    startsWithL st (lc "#") = true := by
  have hm : markerData
      = '#' :: lc " Initialize as empty array since Brave components have been removed" := rfl
  rw [hm] at h
  cases st with
  | nil => exact absurd h (by decide)
  | cons c r =>
    have h' : (c == '#' && startsWithL r
      (lc " Initialize as empty array since Brave components have been removed")) = true := h
    rw [Bool.and_eq_true] at h'
    show (c == '#' && startsWithL r []) = true
    rw [h'.1, startsWithL_nil]
    rfl

theorem danglingOk_spec {d : LineT} (h : danglingOk d = true) :
    startsWithL d (lc "if") = false ∧ startsWithL d (lc "foreach") = false ∧
      assignStartTest d = false := by
  simp only [danglingOk, Bool.and_eq_true, Bool.not_eq_true'] at h
  exact ⟨h.1.1.2, h.1.2, h.2⟩

theorem danglingOk_no_assign {d : LineT} (h : danglingOk d = true) :
    assignStartTest d = false :=
  (danglingOk_spec h).2.2

theorem dangling3Ok_spec {st : LineT} (h : dangling3Ok st = true) :
    startsWithL st (lc "#") = false ∧ startsWithL st (lc "if") = false ∧
      startsWithL st (lc "foreach") = false ∧ startsWithL st (lc "declare_args") = false ∧
      startsWithL st [Char.ofNat 125] = false ∧ startsWithL st [Char.ofNat 123] = false ∧
      pat3Test st = false := by
  simp only [dangling3Ok, Bool.and_eq_true, Bool.not_eq_true'] at h
  exact ⟨h.1.1.1.1.1.1.2, h.1.1.1.1.1.2, h.1.1.1.1.2, h.1.1.1.2, h.1.1.2, h.1.2, h.2⟩

theorem patternA_elim {lines : List LineT} {i : Nat} {ind nm d : LineT}
    (h : patternAParse lines i = some (ind, nm, d)) :
    i + 1 < lines.length ∧ stripL (lines.getD (i + 1) []) = lc "]" ∧
      i + 2 < lines.length ∧ danglingOk (stripL (lines.getD (i + 2) [])) = true ∧
      openerParse (lines.getD i []) = some (ind, nm) ∧
      d = stripL (lines.getD (i + 2) []) := by
  unfold patternAParse at h
  split at h
  · rename_i hcond
    simp only [Bool.and_eq_true, decide_eq_true_eq] at hcond
    cases ho : openerParse (lines.getD i []) with
    | none => rw [ho] at h; exact Option.noConfusion h
    | some p =>
      obtain ⟨pi, pn⟩ := p
      rw [ho] at h
      injection h with h'
      injection h' with ha hb
      injection hb with hb hc
      subst ha; subst hb
      refine ⟨hcond.1.1.1, hcond.1.1.2, hcond.1.2, hcond.2, ?_, hc.symm⟩
      rfl
  · exact Option.noConfusion h

theorem patternA_intro {lines : List LineT} {i : Nat} {ind nm : LineT}
    (h1 : i + 1 < lines.length) (h2 : stripL (lines.getD (i + 1) []) = lc "]")
    (h3 : i + 2 < lines.length) (h4 : danglingOk (stripL (lines.getD (i + 2) [])) = true)
    (h5 : openerParse (lines.getD i []) = some (ind, nm)) :
    patternAParse lines i = some (ind, nm, stripL (lines.getD (i + 2) [])) := by
  unfold patternAParse
  have hc : (decide (i + 1 < lines.length) &&
      decide (stripL (lines.getD (i + 1) []) = lc "]") && decide (i + 2 < lines.length) &&
      danglingOk (stripL (lines.getD (i + 2) []))) = true := by
    rw [decide_eq_true h1, decide_eq_true h2, decide_eq_true h3, h4]
    rfl
  rw [if_pos hc, h5]
  rfl

theorem patternB_elim {lines : List LineT} {i : Nat} {ind nm d : LineT}
    (h : patternBParse lines i = some (ind, nm, d)) :
    startsWithL (stripL (lines.getD i [])) markerData = true ∧
      i + 1 < lines.length ∧ i + 2 < lines.length ∧
      stripL (lines.getD (i + 2) []) = lc "]" ∧ i + 3 < lines.length ∧
      danglingOk (stripL (lines.getD (i + 3) [])) = true ∧
      openerParse (lines.getD (i + 1) []) = some (ind, nm) ∧
      d = stripL (lines.getD (i + 3) []) := by
  unfold patternBParse at h
  split at h
  · rename_i hcond
    simp only [Bool.and_eq_true, decide_eq_true_eq] at hcond
    cases ho : openerParse (lines.getD (i + 1) []) with
    | none => rw [ho] at h; exact Option.noConfusion h
    | some p =>
      obtain ⟨pi, pn⟩ := p
      rw [ho] at h
      injection h with h'
      injection h' with ha hb
      injection hb with hb hc
      subst ha; subst hb
      exact ⟨hcond.1.1.1.1.1, hcond.1.1.1.1.2, hcond.1.1.1.2, hcond.1.1.2, hcond.1.2,
        hcond.2, rfl, hc.symm⟩
  · exact Option.noConfusion h

theorem patternB_intro {lines : List LineT} {i : Nat} {ind nm : LineT}
    (h0 : startsWithL (stripL (lines.getD i [])) markerData = true)
    (h1 : i + 1 < lines.length) (h2 : i + 2 < lines.length)
    (h3 : stripL (lines.getD (i + 2) []) = lc "]") (h4 : i + 3 < lines.length)
    (h5 : danglingOk (stripL (lines.getD (i + 3) [])) = true)
    (h6 : openerParse (lines.getD (i + 1) []) = some (ind, nm)) :
    patternBParse lines i = some (ind, nm, stripL (lines.getD (i + 3) [])) := by
  unfold patternBParse
  have hc : (startsWithL (stripL (lines.getD i [])) markerData &&
      decide (i + 1 < lines.length) && decide (i + 2 < lines.length) &&
      decide (stripL (lines.getD (i + 2) []) = lc "]") && decide (i + 3 < lines.length) &&
      danglingOk (stripL (lines.getD (i + 3) []))) = true := by
    rw [h0, decide_eq_true h1, decide_eq_true h2, decide_eq_true h3, decide_eq_true h4, h5]
    rfl
  rw [if_pos hc, h6]
  rfl

theorem patternA_none_of_opener_none {lines : List LineT} {i : Nat}
    (h : openerParse (lines.getD i []) = none) : patternAParse lines i = none := by
  unfold patternAParse
  split
  · rw [h]; rfl
  · rfl

theorem patternB_none_of_no_marker {lines : List LineT} {i : Nat}
    (h : startsWithL (stripL (lines.getD i [])) markerData = false) :
    patternBParse lines i = none := by
  unfold patternBParse
  rw [if_neg (by rw [h]; simp)]

/-- Pattern A cannot fire on a line whose stripped content refutes the
`^ident\s*[=+]` test (in particular under the Pattern C admission check). -/
theorem patternA_none_of_pat3_false {lines : List LineT} {i : Nat}
    (h : pat3Test (stripL (lines.getD i [])) = false) : patternAParse lines i = none := by
  cases ho : openerParse (lines.getD i []) with
  | none => exact patternA_none_of_opener_none ho
  | some p =>
    obtain ⟨ind, nm⟩ := p
    rw [opener_pat3 ho] at h
    cases h

/-- Pattern B cannot fire on a line whose stripped content does not start
with `#` (the marker is a comment line). -/
theorem patternB_none_of_no_hash {lines : List LineT} {i : Nat}
    (h : startsWithL (stripL (lines.getD i [])) (lc "#") = false) :
    patternBParse lines i = none := by
  apply patternB_none_of_no_marker
  cases hm : startsWithL (stripL (lines.getD i [])) markerData with
  | false => rfl
  | true => rw [startsWith_hash_of_marker hm] at h; cases h

/-- Pattern A cannot fire at `i` when line `i+1` is the empty-array opener
of a Pattern B occurrence (an opener line never strips to `]`). -/
theorem patternA_none_of_opener_at_next {lines : List LineT} {i : Nat} {ind nm : LineT}
    (h : openerParse (lines.getD (i + 1) []) = some (ind, nm)) :
    patternAParse lines i = none := by
  unfold patternAParse
  rw [if_neg]
  intro hcond
  simp only [Bool.and_eq_true, decide_eq_true_eq] at hcond
  obtain ⟨c, r, hs, hc⟩ := opener_strip_head h
  rw [hcond.1.1.2] at hs
  have : c = ']' := by
    have := congrArg (fun l => l.headI) hs
    simpa [lc] using this.symm
  subst this
  rw [show isIdentStart ']' = false by decide] at hc
  cases hc

theorem stepA_eq {lines : List LineT} {i : Nat} {out : List LineT} {m : Bool}
    {ind nm d : LineT} (hA : patternAParse lines i = some (ind, nm, d)) :
    scanStep lines ⟨i, out, m⟩ = ⟨i + 3, out ++ [mkAssign ind nm (plainValue d)], true⟩ := by
  unfold scanStep
  rw [hA]

theorem stepB_eq {lines : List LineT} {i : Nat} {out : List LineT} {m : Bool}
    {ind nm d : LineT} (hA : patternAParse lines i = none)
    (hB : patternBParse lines i = some (ind, nm, d)) :
    scanStep lines ⟨i, out, m⟩ = ⟨i + 4, out ++ [mkAssign ind nm (arrayValue d)], true⟩ := by
  unfold scanStep
  rw [hA, hB]

theorem stepC_eq {lines : List LineT} {i : Nat} {out : List LineT} {m : Bool}
    {ind nm : LineT} (hA : patternAParse lines i = none)
    (hB : patternBParse lines i = none)
    (h3 : dangling3Ok (stripL (lines.getD i [])) = true) (hi : 0 < i)
    (hprev : incompleteParse (stripL (lines.getD (i - 1) [])) = some (ind, nm)) :
    scanStep lines ⟨i, out, m⟩ =
      ⟨i + 1, out.dropLast ++
        [mkAssign ind nm (plainValue (stripL (lines.getD i [])))], true⟩ := by
  unfold scanStep
  rw [hA, hB]
  simp only
  rw [if_pos (by rw [h3, decide_eq_true hi]; rfl)]
  rw [if_neg, hprev]
  intro hcon
  rw [Bool.and_eq_true, decide_eq_true_eq, decide_eq_true_eq] at hcon
  rw [hcon.1] at hprev
  have hnone : incompleteParse (lc "]") = none := by decide
  rw [hnone] at hprev
  exact Option.noConfusion hprev

theorem step_default {lines : List LineT} {s : ScanState} (h : firesAt lines s.i = false) :
    scanStep lines s = ⟨s.i + 1, s.out ++ [lines.getD s.i []], s.modified⟩ := by
  unfold firesAt at h
  cases hA : patternAParse lines s.i with
  | some p => rw [hA] at h; exact absurd h (by simp)
  | none =>
    cases hB : patternBParse lines s.i with
    | some p => rw [hB] at h; exact absurd h (by simp)
    | none =>
      rw [hA, hB] at h
      simp only [Option.isSome_none, Bool.false_or] at h
      unfold scanStep
      rw [hA, hB]
      simp only
      by_cases h3 : (dangling3Ok (stripL (lines.getD s.i [])) && decide (0 < s.i)) = true
      · rw [if_pos h3]
        by_cases hg : (decide (stripL (lines.getD (s.i - 1) []) = lc "]") &&
            decide (1 < s.i)) = true
        · rw [if_pos hg]
        · rw [if_neg hg]
          cases hp : incompleteParse (stripL (lines.getD (s.i - 1) [])) with
          | none => rfl
          | some q =>
            exfalso
            rw [h3, hp] at h
            simp only [Option.isSome_some, Bool.true_and, Bool.and_true,
              Bool.not_eq_false'] at h
            exact hg h
      · rw [if_neg h3]

theorem step_modified_of_fires {lines : List LineT} {s : ScanState}
    (h : firesAt lines s.i = true) : (scanStep lines s).modified = true := by
  unfold firesAt at h
  cases hA : patternAParse lines s.i with
  | some p => obtain ⟨ind, nm, d⟩ := p; rw [stepA_eq hA]
  | none =>
    cases hB : patternBParse lines s.i with
    | some p => obtain ⟨ind, nm, d⟩ := p; rw [stepB_eq hA hB]
    | none =>
      rw [hA, hB] at h
      simp only [Option.isSome_none, Bool.false_or] at h
      simp only [Bool.and_eq_true, decide_eq_true_eq] at h
      obtain ⟨⟨⟨h3, hi⟩, -⟩, hI⟩ := h
      cases hp : incompleteParse (stripL (lines.getD (s.i - 1) [])) with
      | none => rw [hp] at hI; exact absurd hI (by simp)
      | some q =>
        obtain ⟨ind, nm⟩ := q
        rw [stepC_eq hA hB h3 hi hp]

theorem step_modified_mono {lines : List LineT} {s : ScanState} (h : s.modified = true) :
    (scanStep lines s).modified = true := by
  cases hA : patternAParse lines s.i with
  | some p => obtain ⟨ind, nm, d⟩ := p; rw [stepA_eq hA]
  | none =>
    cases hB : patternBParse lines s.i with
    | some p => obtain ⟨ind, nm, d⟩ := p; rw [stepB_eq hA hB]
    | none =>
      unfold scanStep
      rw [hA, hB]
      simp only
      split
      · split
        · exact h
        · split
          · rfl
          · exact h
      · exact h

theorem scanStep_i_gt (lines : List LineT) (s : ScanState) : s.i < (scanStep lines s).i := by
  cases hA : patternAParse lines s.i with
  | some p =>
    obtain ⟨ind, nm, d⟩ := p
    rw [stepA_eq hA]
    show s.i < s.i + 3
    omega
  | none =>
    cases hB : patternBParse lines s.i with
    | some p =>
      obtain ⟨ind, nm, d⟩ := p
      rw [stepB_eq hA hB]
      show s.i < s.i + 4
      omega
    | none =>
      unfold scanStep
      rw [hA, hB]
      simp only
      split
      · split
        · show s.i < s.i + 1
          omega
        · split
          · show s.i < s.i + 1
            omega
          · show s.i < s.i + 1
            omega
      · show s.i < s.i + 1
        omega

theorem scanStep_i_le {lines : List LineT} {s : ScanState} (h : s.i < lines.length) :
    (scanStep lines s).i ≤ lines.length := by
  cases hA : patternAParse lines s.i with
  | some p =>
    obtain ⟨ind, nm, d⟩ := p
    rw [stepA_eq hA]
    have := (patternA_elim hA).2.2.1
    show s.i + 3 ≤ lines.length
    omega
  | none =>
    cases hB : patternBParse lines s.i with
    | some p =>
      obtain ⟨ind, nm, d⟩ := p
      rw [stepB_eq hA hB]
      have := (patternB_elim hB).2.2.2.2.1
      show s.i + 4 ≤ lines.length
      omega
    | none =>
      unfold scanStep
      rw [hA, hB]
      simp only
      split
      · split
        · show s.i + 1 ≤ lines.length
          omega
        · split
          · show s.i + 1 ≤ lines.length
            omega
          · show s.i + 1 ≤ lines.length
            omega
      · show s.i + 1 ≤ lines.length
        omega

theorem scanRun_modified_mono (lines : List LineT) :
    ∀ (fuel : Nat) (s : ScanState), s.modified = true →
      (scanRun lines fuel s).modified = true := by
  intro fuel
  induction fuel with
  | zero => intro s h; exact h
  | succ fuel ih =>
    intro s h
    unfold scanRun
    split
    · exact ih _ (step_modified_mono h)
    · exact h

theorem run_nofire (lines : List LineT) :
    ∀ (fuel : Nat) (s : ScanState), lines.length ≤ s.i + fuel →
      (∀ j, s.i ≤ j → j < lines.length → firesAt lines j = false) →
      scanRun lines fuel s = ⟨(scanRun lines fuel s).i, s.out ++ lines.drop s.i, s.modified⟩ := by
  intro fuel
  induction fuel with
  | zero =>
    intro s hfu _
    unfold scanRun
    rw [List.drop_eq_nil_of_le (by omega), List.append_nil]
  | succ fuel ih =>
    intro s hfu hf
    unfold scanRun
    split
    · rename_i hlt
      rw [step_default (hf s.i le_rfl hlt)]
      have hdrop : lines.drop s.i = lines.getD s.i [] :: lines.drop (s.i + 1) := by
        rw [List.getD_eq_getElem lines [] hlt]
        exact List.drop_eq_getElem_cons hlt
      rw [ih ⟨s.i + 1, s.out ++ [lines.getD s.i []], s.modified⟩
        (by show lines.length ≤ s.i + 1 + fuel; omega)
        (fun j hj hjl => hf j (le_trans (Nat.le_succ s.i) hj) hjl)]
      simp only
      rw [hdrop, List.append_assoc]
      rfl
    · rename_i hge
      rw [List.drop_eq_nil_of_le (by omega), List.append_nil]

theorem run_visited_nofire (lines : List LineT) :
    ∀ (fuel : Nat) (s : ScanState), lines.length ≤ s.i + fuel →
      (scanRun lines fuel s).modified = false →
      ∀ j, s.i ≤ j → j < lines.length → firesAt lines j = false := by
  intro fuel
  induction fuel with
  | zero =>
    intro s hfu _ j hj hjl
    omega
  | succ fuel ih =>
    intro s hfu hm j hj hjl
    unfold scanRun at hm
    by_cases hlt : s.i < lines.length
    · rw [if_pos hlt] at hm
      have hf0 : firesAt lines s.i = false := by
        cases hfi : firesAt lines s.i with
        | false => rfl
        | true =>
          exfalso
          rw [scanRun_modified_mono lines fuel _ (step_modified_of_fires hfi)] at hm
          exact Bool.noConfusion hm
      rcases Nat.eq_or_lt_of_le hj with rfl | hjgt
      · exact hf0
      · have hstep := step_default hf0
        rw [hstep] at hm
        exact ih ⟨s.i + 1, s.out ++ [lines.getD s.i []], s.modified⟩
          (by show lines.length ≤ s.i + 1 + fuel; omega) hm
          j (by show s.i + 1 ≤ j; omega) hjl
    · omega

/-- Exhaustive case analysis of one scanner step: a Pattern A fire, a
Pattern B fire, a Pattern C fire, or a verbatim copy. -/
theorem scanStep_cases (lines : List LineT) (s : ScanState) :
    (∃ ind nm d, patternAParse lines s.i = some (ind, nm, d) ∧
      scanStep lines s = ⟨s.i + 3, s.out ++ [mkAssign ind nm (plainValue d)], true⟩) ∨
    (∃ ind nm d, patternAParse lines s.i = none ∧
      patternBParse lines s.i = some (ind, nm, d) ∧
      scanStep lines s = ⟨s.i + 4, s.out ++ [mkAssign ind nm (arrayValue d)], true⟩) ∨
    (∃ ind nm, dangling3Ok (stripL (lines.getD s.i [])) = true ∧ 0 < s.i ∧
      incompleteParse (stripL (lines.getD (s.i - 1) [])) = some (ind, nm) ∧
      scanStep lines s = ⟨s.i + 1, s.out.dropLast ++
        [mkAssign ind nm (plainValue (stripL (lines.getD s.i [])))], true⟩) ∨
    scanStep lines s = ⟨s.i + 1, s.out ++ [lines.getD s.i []], s.modified⟩ := by
  cases hA : patternAParse lines s.i with
  | some q =>
    obtain ⟨ind, nm, d⟩ := q
    exact Or.inl ⟨ind, nm, d, rfl, stepA_eq hA⟩
  | none =>
    cases hB : patternBParse lines s.i with
    | some q =>
      obtain ⟨ind, nm, d⟩ := q
      exact Or.inr (Or.inl ⟨ind, nm, d, rfl, rfl, stepB_eq hA hB⟩)
    | none =>
      by_cases h3 : (dangling3Ok (stripL (lines.getD s.i [])) && decide (0 < s.i)) = true
      · by_cases hg : (decide (stripL (lines.getD (s.i - 1) []) = lc "]") &&
            decide (1 < s.i)) = true
        · refine Or.inr (Or.inr (Or.inr ?_))
          unfold scanStep
          rw [hA, hB]
          simp only
          rw [if_pos h3, if_pos hg]
        · cases hp : incompleteParse (stripL (lines.getD (s.i - 1) [])) with
          | none =>
            refine Or.inr (Or.inr (Or.inr ?_))
            unfold scanStep
            rw [hA, hB]
            simp only
            rw [if_pos h3, if_neg hg, hp]
          | some q =>
            obtain ⟨ind, nm⟩ := q
            rw [Bool.and_eq_true, decide_eq_true_eq] at h3
            exact Or.inr (Or.inr (Or.inl ⟨ind, nm, h3.1, h3.2, rfl,
              stepC_eq hA hB h3.1 h3.2 hp⟩))
      · refine Or.inr (Or.inr (Or.inr ?_))
        unfold scanStep
        rw [hA, hB]
        simp only
        rw [if_neg h3]

/-- Safety invariant for Pattern C (looked-back incomplete assignment):
whenever the scan has reached position `i > 0` and input line `i-1` strips
to an incomplete assignment, the output built so far ends with exactly that
line, copied verbatim. -/
theorem reach_prev_incomplete (lines : List LineT) :
    ∀ s : ScanState, Reach lines s →
      ∀ p : LineT × LineT, 0 < s.i →
        incompleteParse (stripL (lines.getD (s.i - 1) [])) = some p →
        s.out ≠ [] ∧ s.out.getLast? = some (lines.getD (s.i - 1) []) := by
  intro s hr
  induction hr with
  | init =>
    intro p h0 _
    exact absurd h0 (by decide)
  | next hr0 hlt ih =>
    rename_i s0
    intro p hi hp
    rcases scanStep_cases lines s0 with
      ⟨ind, nm, d, hA, hst⟩ | ⟨ind, nm, d, hA, hB, hst⟩ |
      ⟨ind, nm, h3, hi0, hprev, hst⟩ | hst
    · exfalso
      rw [hst] at hp
      have harith : s0.i + 3 - 1 = s0.i + 2 := by omega
      dsimp only at hp
      rw [harith] at hp
      have hd := (patternA_elim hA).2.2.2.1
      exact Bool.noConfusion ((danglingOk_no_assign hd).symm.trans
        (incomplete_assignStart hp))
    · exfalso
      rw [hst] at hp
      have harith : s0.i + 4 - 1 = s0.i + 3 := by omega
      dsimp only at hp
      rw [harith] at hp
      have hd := (patternB_elim hB).2.2.2.2.2.1
      exact Bool.noConfusion ((danglingOk_no_assign hd).symm.trans
        (incomplete_assignStart hp))
    · exfalso
      rw [hst] at hp
      have harith : s0.i + 1 - 1 = s0.i := by omega
      dsimp only at hp
      rw [harith] at hp
      have hpat3 := (dangling3Ok_spec h3).2.2.2.2.2.2
      exact Bool.noConfusion (hpat3.symm.trans (assign_imp_pat3 (incomplete_assignStart hp)))
    · rw [hst]
      have harith : s0.i + 1 - 1 = s0.i := by omega
      dsimp only
      rw [harith]
      exact ⟨by simp, List.getLast?_concat _⟩

theorem no_incomplete_of_danglingOk {l : LineT} (hd : danglingOk (stripL l) = true) :
    incompleteParse (stripL l) = none := by
  cases hp : incompleteParse (stripL l) with
  | none => rfl
  | some p =>
    obtain ⟨ind, nm⟩ := p
    exact absurd (incomplete_assignStart hp)
      (by rw [danglingOk_no_assign hd]; exact Bool.false_ne_true)

theorem no_incomplete_of_dangling3Ok {l : LineT} (h3 : dangling3Ok (stripL l) = true) :
    incompleteParse (stripL l) = none := by
  cases hp : incompleteParse (stripL l) with
  | none => rfl
  | some p =>
    obtain ⟨ind, nm⟩ := p
    exact absurd (assign_imp_pat3 (incomplete_assignStart hp))
      (by rw [(dangling3Ok_spec h3).2.2.2.2.2.2]; exact Bool.false_ne_true)

theorem joinOut_concat (segs : List Seg) (s : Seg) :
    joinOut (segs ++ [s]) = joinOut segs ++ s.emitted := by
  simp [joinOut, List.flatten_append]

theorem joinIdxs_concat (segs : List Seg) (s : Seg) :
    joinIdxs (segs ++ [s]) = joinIdxs segs ++ s.idxs := by
  simp [joinIdxs, List.flatten_append]

theorem projI_def (si : IState) : projI si = ⟨si.i, joinOut si.segs, si.modified⟩ := rfl

/-- Exhaustive case analysis of one step, for the plain and the
instrumented scanner simultaneously (they branch on the same conditions). -/
theorem step_both_cases (lines : List LineT) (si : IState) :
    (∃ ind nm d, patternAParse lines si.i = some (ind, nm, d) ∧
      stepI lines si = ⟨si.i + 3,
        si.segs ++ [⟨[si.i, si.i + 1, si.i + 2], [mkAssign ind nm (plainValue d)]⟩], true⟩ ∧
      scanStep lines (projI si) =
        ⟨si.i + 3, joinOut si.segs ++ [mkAssign ind nm (plainValue d)], true⟩) ∨
    (∃ ind nm d, patternBParse lines si.i = some (ind, nm, d) ∧
      stepI lines si = ⟨si.i + 4,
        si.segs ++ [⟨[si.i, si.i + 1, si.i + 2, si.i + 3], [mkAssign ind nm (arrayValue d)]⟩], true⟩ ∧
      scanStep lines (projI si) =
        ⟨si.i + 4, joinOut si.segs ++ [mkAssign ind nm (arrayValue d)], true⟩) ∨
    (∃ ind nm, dangling3Ok (stripL (lines.getD si.i [])) = true ∧ 0 < si.i ∧
      incompleteParse (stripL (lines.getD (si.i - 1) [])) = some (ind, nm) ∧
      stepI lines si = ⟨si.i + 1, si.segs.dropLast ++
        [⟨[si.i - 1, si.i], [mkAssign ind nm (plainValue (stripL (lines.getD si.i [])))]⟩], true⟩ ∧
      scanStep lines (projI si) = ⟨si.i + 1, (joinOut si.segs).dropLast ++
        [mkAssign ind nm (plainValue (stripL (lines.getD si.i [])))], true⟩) ∨
    (stepI lines si = ⟨si.i + 1, si.segs ++ [⟨[si.i], [lines.getD si.i []]⟩], si.modified⟩ ∧
      scanStep lines (projI si) =
        ⟨si.i + 1, joinOut si.segs ++ [lines.getD si.i []], si.modified⟩) := by
  rw [projI_def]
  cases hA : patternAParse lines si.i with
  | some q =>
    obtain ⟨ind, nm, d⟩ := q
    refine Or.inl ⟨ind, nm, d, rfl, ?_, stepA_eq hA⟩
    unfold stepI
    rw [hA]
  | none =>
    cases hB : patternBParse lines si.i with
    | some q =>
      obtain ⟨ind, nm, d⟩ := q
      refine Or.inr (Or.inl ⟨ind, nm, d, rfl, ?_, stepB_eq hA hB⟩)
      unfold stepI
      rw [hA, hB]
    | none =>
      by_cases h3 : (dangling3Ok (stripL (lines.getD si.i [])) && decide (0 < si.i)) = true
      · by_cases hg : (decide (stripL (lines.getD (si.i - 1) []) = lc "]") &&
            decide (1 < si.i)) = true
        · refine Or.inr (Or.inr (Or.inr ⟨?_, ?_⟩))
          · unfold stepI
            rw [hA, hB]
            simp only
            rw [if_pos h3, if_pos hg]
          · unfold scanStep
            rw [hA, hB]
            simp only
            rw [if_pos h3, if_pos hg]
        · cases hp : incompleteParse (stripL (lines.getD (si.i - 1) [])) with
          | none =>
            refine Or.inr (Or.inr (Or.inr ⟨?_, ?_⟩))
            · unfold stepI
              rw [hA, hB]
              simp only
              rw [if_pos h3, if_neg hg, hp]
            · unfold scanStep
              rw [hA, hB]
              simp only
              rw [if_pos h3, if_neg hg, hp]
          | some q =>
            obtain ⟨ind, nm⟩ := q
            rw [Bool.and_eq_true, decide_eq_true_eq] at h3
            refine Or.inr (Or.inr (Or.inl ⟨ind, nm, h3.1, h3.2, rfl, ?_,
              stepC_eq hA hB h3.1 h3.2 hp⟩))
            unfold stepI
            rw [hA, hB]
            simp only
            rw [if_pos (by rw [h3.1, decide_eq_true h3.2]; rfl)]
            rw [if_neg hg, hp]
      · refine Or.inr (Or.inr (Or.inr ⟨?_, ?_⟩))
        · unfold stepI
          rw [hA, hB]
          simp only
          rw [if_neg h3]
        · unfold scanStep
          rw [hA, hB]
          simp only
          rw [if_neg h3]

/-- One instrumented step simulates one plain step and preserves the
accounting invariant. -/
theorem stepI_sim (lines : List LineT) (si : IState) (hInv : IInv lines si) :
    projI (stepI lines si) = scanStep lines (projI si) ∧ IInv lines (stepI lines si) := by
  obtain ⟨hIdx, hLast, hSeg⟩ := hInv
  rcases step_both_cases lines si with
    ⟨ind, nm, d, hA, hsi, hss⟩ | ⟨ind, nm, d, hB, hsi, hss⟩ |
    ⟨ind, nm, h3, hi0, hp, hsi, hss⟩ | ⟨hsi, hss⟩
  · refine ⟨?_, ?_⟩
    · rw [hsi, hss, projI_def]
      dsimp only
      rw [joinOut_concat]
    · rw [hsi]
      refine ⟨?_, ?_, ?_⟩
      · dsimp only
        rw [joinIdxs_concat, hIdx]
        rw [show si.i + 3 = (si.i + 2) + 1 from rfl, List.range_succ,
          show si.i + 2 = (si.i + 1) + 1 from rfl, List.range_succ, List.range_succ]
        simp
      · intro hpos hq
        dsimp only at hq
        rw [show si.i + 3 - 1 = si.i + 2 from rfl] at hq
        have hd := (patternA_elim hA).2.2.2.1
        rw [no_incomplete_of_danglingOk hd] at hq
        exact absurd hq (by simp)
      · intro seg hseg
        dsimp only at hseg
        rcases List.mem_append.mp hseg with hseg | hseg
        · exact hSeg seg hseg
        · rw [List.mem_singleton.mp hseg]
          exact Or.inr ⟨by simp, by simp, by simp⟩
  · refine ⟨?_, ?_⟩
    · rw [hsi, hss, projI_def]
      dsimp only
      rw [joinOut_concat]
    · rw [hsi]
      refine ⟨?_, ?_, ?_⟩
      · dsimp only
        rw [joinIdxs_concat, hIdx]
        rw [show si.i + 4 = (si.i + 3) + 1 from rfl, List.range_succ,
          show si.i + 3 = (si.i + 2) + 1 from rfl, List.range_succ,
          show si.i + 2 = (si.i + 1) + 1 from rfl, List.range_succ, List.range_succ]
        simp
      · intro hpos hq
        dsimp only at hq
        rw [show si.i + 4 - 1 = si.i + 3 from rfl] at hq
        have hd := (patternB_elim hB).2.2.2.2.2.1
        rw [no_incomplete_of_danglingOk hd] at hq
        exact absurd hq (by simp)
      · intro seg hseg
        dsimp only at hseg
        rcases List.mem_append.mp hseg with hseg | hseg
        · exact hSeg seg hseg
        · rw [List.mem_singleton.mp hseg]
          exact Or.inr ⟨by simp, by simp, by simp⟩
  · have hr1 : List.range si.i = List.range (si.i - 1) ++ [si.i - 1] := by
      conv_lhs => rw [show si.i = (si.i - 1) + 1 by omega]
      rw [List.range_succ]
    have hlast : si.segs.getLast? = some ⟨[si.i - 1], [lines.getD (si.i - 1) []]⟩ :=
      hLast hi0 (by rw [hp]; rfl)
    have hsplit : si.segs.dropLast ++ [(⟨[si.i - 1], [lines.getD (si.i - 1) []]⟩ : Seg)]
        = si.segs :=
      List.dropLast_append_getLast? _ (Option.mem_def.mpr hlast)
    have hJoin : joinOut si.segs
        = joinOut si.segs.dropLast ++ [lines.getD (si.i - 1) []] := by
      conv_lhs => rw [← hsplit]
      rw [joinOut_concat]
    have hJoinIdx : joinIdxs si.segs = joinIdxs si.segs.dropLast ++ [si.i - 1] := by
      conv_lhs => rw [← hsplit]
      rw [joinIdxs_concat]
    have hIdxDrop : joinIdxs si.segs.dropLast = List.range (si.i - 1) := by
      have hcat : joinIdxs si.segs.dropLast ++ [si.i - 1]
          = List.range (si.i - 1) ++ [si.i - 1] := by
        rw [← hJoinIdx, hIdx]
        exact hr1
      exact List.append_cancel_right hcat
    refine ⟨?_, ?_⟩
    · rw [hsi, hss, projI_def]
      dsimp only
      rw [joinOut_concat, hJoin, List.dropLast_concat]
    · rw [hsi]
      refine ⟨?_, ?_, ?_⟩
      · dsimp only
        rw [joinIdxs_concat, hIdxDrop]
        dsimp only
        rw [List.range_succ, hr1]
        simp
      · intro hpos hq
        dsimp only at hq
        rw [show si.i + 1 - 1 = si.i from rfl] at hq
        rw [no_incomplete_of_dangling3Ok h3] at hq
        exact absurd hq (by simp)
      · intro seg hseg
        dsimp only at hseg
        rcases List.mem_append.mp hseg with hseg | hseg
        · exact hSeg seg ((List.dropLast_sublist si.segs).subset hseg)
        · rw [List.mem_singleton.mp hseg]
          exact Or.inr ⟨by simp, by simp, by simp⟩
  · refine ⟨?_, ?_⟩
    · rw [hsi, hss, projI_def]
      dsimp only
      rw [joinOut_concat]
    · rw [hsi]
      refine ⟨?_, ?_, ?_⟩
      · dsimp only
        rw [joinIdxs_concat, hIdx, List.range_succ]
      · intro hpos hq
        dsimp only
        rw [show si.i + 1 - 1 = si.i from rfl]
        rw [List.getLast?_concat]
      · intro seg hseg
        dsimp only at hseg
        rcases List.mem_append.mp hseg with hseg | hseg
        · exact hSeg seg hseg
        · rw [List.mem_singleton.mp hseg]
          exact Or.inl ⟨si.i, rfl⟩

theorem IInv_init (lines : List LineT) : IInv lines ⟨0, [], false⟩ := by
  refine ⟨rfl, ?_, ?_⟩
  · intro h
    exact absurd h (by decide)
  · intro seg h
    exact absurd h (by simp)

theorem runI_sim (lines : List LineT) :
    ∀ (fuel : Nat) (si : IState), IInv lines si →
      IInv lines (runI lines fuel si) ∧
      scanRun lines fuel (projI si) = projI (runI lines fuel si) := by
  intro fuel
  induction fuel with
  | zero => intro si h; exact ⟨h, rfl⟩
  | succ fuel ih =>
    intro si h
    unfold runI scanRun
    by_cases hlt : si.i < lines.length
    · rw [if_pos (show (projI si).i < lines.length from hlt), if_pos hlt]
      obtain ⟨hproj, hinv⟩ := stepI_sim lines si h
      exact ⟨(ih _ hinv).1, by rw [← hproj]; exact (ih _ hinv).2⟩
    · rw [if_neg (show ¬((projI si).i < lines.length) from hlt), if_neg hlt]
      exact ⟨h, rfl⟩

theorem stepI_i_bounds (lines : List LineT) (si : IState) (h : si.i < lines.length) :
    si.i < (stepI lines si).i ∧ (stepI lines si).i ≤ lines.length := by
  rcases step_both_cases lines si with
    ⟨ind, nm, d, hA, hsi, -⟩ | ⟨ind, nm, d, hB, hsi, -⟩ |
    ⟨ind, nm, -, -, -, hsi, -⟩ | ⟨hsi, -⟩ <;> rw [hsi]
  · have := (patternA_elim hA).2.2.1
    exact ⟨by show si.i < si.i + 3; omega, by show si.i + 3 ≤ lines.length; omega⟩
  · have := (patternB_elim hB).2.2.2.2.1
    exact ⟨by show si.i < si.i + 4; omega, by show si.i + 4 ≤ lines.length; omega⟩
  · exact ⟨by show si.i < si.i + 1; omega, by show si.i + 1 ≤ lines.length; omega⟩
  · exact ⟨by show si.i < si.i + 1; omega, by show si.i + 1 ≤ lines.length; omega⟩

theorem runI_i_final (lines : List LineT) :
    ∀ (fuel : Nat) (si : IState), si.i ≤ lines.length → lines.length ≤ si.i + fuel →
      (runI lines fuel si).i = lines.length := by
  intro fuel
  induction fuel with
  | zero =>
    intro si h1 h2
    unfold runI
    omega
  | succ fuel ih =>
    intro si h1 h2
    unfold runI
    by_cases hlt : si.i < lines.length
    · rw [if_pos hlt]
      have hb := stepI_i_bounds lines si hlt
      exact ih _ hb.2 (by omega)
    · rw [if_neg hlt]
      omega

theorem startsWithL_single {d : LineT} {c : Char} (h : startsWithL d [c] = true) :
    ∃ r, d = c :: r := by
  cases d with
  | nil =>
    rw [show startsWithL ([] : LineT) [c] = false from rfl] at h
    exact Bool.noConfusion h
  | cons e r =>
    have h' : (e == c && startsWithL r []) = true := h
    have he : e = c := beq_iff_eq.mp (by
      cases hec : (e == c) with
      | true => rfl
      | false => rw [hec] at h'; exact absurd h' (by simp))
    exact ⟨r, by rw [he]⟩

theorem danglingOk_of_nonident_head {c : Char} (r : LineT)
    (h1 : (c == '#') = false) (h2 : (c == 'i') = false) (h3 : (c == 'f') = false)
    (h4 : isIdentStart c = false) : danglingOk (c :: r) = true := by
  unfold danglingOk assignStartTest identThen
  rw [show startsWithL (c :: r) (lc "#") = ((c == '#') && startsWithL r []) from rfl,
    show startsWithL (c :: r) (lc "if") = ((c == 'i') && startsWithL r (lc "f")) from rfl,
    show startsWithL (c :: r) (lc "foreach")
      = ((c == 'f') && startsWithL r (lc "oreach")) from rfl,
    h1, h2, h3]
  simp [h4]

theorem dangling3Ok_rbrace (r : LineT) : dangling3Ok (Char.ofNat 125 :: r) = false := by
  unfold dangling3Ok
  rw [show startsWithL (Char.ofNat 125 :: r) [Char.ofNat 125]
      = ((Char.ofNat 125 == Char.ofNat 125) && startsWithL r []) from rfl,
    show (Char.ofNat 125 == Char.ofNat 125) = true from by decide, startsWithL_nil]
  simp

theorem dangling3Ok_lbrace (r : LineT) : dangling3Ok (Char.ofNat 123 :: r) = false := by
  unfold dangling3Ok
  rw [show startsWithL (Char.ofNat 123 :: r) [Char.ofNat 123]
      = ((Char.ofNat 123 == Char.ofNat 123) && startsWithL r []) from rfl,
    show (Char.ofNat 123 == Char.ofNat 123) = true from by decide, startsWithL_nil]
  simp

/-- C1: Pattern A: whenever the scanner's loop is at a position `i` where
line `i` is an empty-array opener, line `i+1` strips to exactly the closing
bracket, and line `i+2` strips to an admissible dangling value (non-empty,
not a comment, not starting with the keywords, not an assignment), the step
replaces the three input lines by the single output line
`<indent><identifier> = <value>` (the value passed through verbatim when it
starts with a bracket or a double quote, otherwise wrapped in quotes) and
advances the scan index by 3; concretely, the two inputs of the claim
produce the stated outputs. -/
theorem claimC1_patternA :
    (∀ (lines : List LineT) (i : Nat) (out : List LineT) (m : Bool) (ind nm : LineT),
      openerParse (lines.getD i []) = some (ind, nm) →
      i + 1 < lines.length →
      stripL (lines.getD (i + 1) []) = lc "]" →
      i + 2 < lines.length →
      danglingOk (stripL (lines.getD (i + 2) [])) = true →
      scanStep lines ⟨i, out, m⟩ =
        ⟨i + 3, out ++ [mkAssign ind nm (plainValue (stripL (lines.getD (i + 2) [])))],
          true⟩) ∧
    (∀ d : LineT, startsWithL d (lc "[") = true ∨ startsWithL d (lc "\"") = true →
      plainValue d = d) ∧
    (∀ d : LineT, startsWithL d (lc "[") = false → startsWithL d (lc "\"") = false →
      plainValue d = '"' :: (d ++ ['"'])) ∧
    fixScan [lc "x = [\n", lc "]\n", lc "foo\n", lc "unrelated\n"]
      = ⟨4, [lc "x = \"foo\"\n", lc "unrelated\n"], true⟩ ∧
    fixScan [lc "x = [\n", lc "]\n", lc "[ \"a\", \"b\" ]\n"]
      = ⟨3, [lc "x = [ \"a\", \"b\" ]\n"], true⟩ := by
  refine ⟨?_, ?_, ?_, by decide, by decide⟩
  · intro lines i out m ind nm h5 h1 h2 h3 h4
    exact stepA_eq (patternA_intro h1 h2 h3 h4 h5)
  · intro d hd
    unfold plainValue
    rw [if_pos (by rcases hd with hd | hd <;> rw [hd] <;> simp)]
  · intro d h1 h2
    unfold plainValue
    rw [if_neg (by rw [h1, h2]; simp)]

/-- C1 witness: the step fires as stated on the first concrete input of the
claim, at scan position 0 with an empty output buffer. -/
theorem claimC1_patternA_witness :
    scanStep [lc "x = [\n", lc "]\n", lc "foo\n", lc "unrelated\n"] ⟨0, [], false⟩
      = ⟨3, [lc "x = \"foo\"\n"], true⟩ := by
  have h := claimC1_patternA.1 [lc "x = [\n", lc "]\n", lc "foo\n", lc "unrelated\n"]
    0 [] false (lc "") (lc "x") (by decide) (by decide) (by decide) (by decide) (by decide)
  exact h.trans (by decide)

/-- C2: Pattern B: whenever the scanner's loop is at a position `i` where
line `i` strips to the marker comment, line `i+1` is an empty-array opener,
line `i+2` strips to the closing bracket and line `i+3` strips to an
admissible dangling value, the step consumes the four lines, advances the
index by 4, and emits one assignment whose value is classified by
`arrayValue`: a bracketed value directly, a quoted value wrapped in a
one-element array literal, an expression-like or alphanumeric (with
underscores and dots) token directly without quotes, anything else quoted;
concretely the claim's input produces the stated output. -/
theorem claimC2_patternB :
    (∀ (lines : List LineT) (i : Nat) (out : List LineT) (m : Bool) (ind nm : LineT),
      startsWithL (stripL (lines.getD i [])) markerData = true →
      i + 1 < lines.length →
      openerParse (lines.getD (i + 1) []) = some (ind, nm) →
      i + 2 < lines.length →
      stripL (lines.getD (i + 2) []) = lc "]" →
      i + 3 < lines.length →
      danglingOk (stripL (lines.getD (i + 3) [])) = true →
      scanStep lines ⟨i, out, m⟩ =
        ⟨i + 4, out ++ [mkAssign ind nm (arrayValue (stripL (lines.getD (i + 3) [])))],
          true⟩) ∧
    (∀ d : LineT, startsWithL d (lc "[") = true → arrayValue d = d) ∧
    (∀ d : LineT, startsWithL d (lc "[") = false → startsWithL d (lc "\"") = true →
      arrayValue d = '[' :: ' ' :: (d ++ [' ', ']'])) ∧
    (∀ d : LineT, startsWithL d (lc "[") = false → startsWithL d (lc "\"") = false →
      hasExprChar d = true ∨ alnumNoUnderscoreDot d = true → arrayValue d = d) ∧
    (∀ d : LineT, startsWithL d (lc "[") = false → startsWithL d (lc "\"") = false →
      hasExprChar d = false → alnumNoUnderscoreDot d = false →
      arrayValue d = '"' :: (d ++ ['"'])) ∧
    fixScan [lc "# Initialize as empty array since Brave components have been removed\n",
        lc "y = [\n", lc "]\n", lc "bar_var\n"]
      = ⟨4, [lc "y = bar_var\n"], true⟩ := by
  refine ⟨?_, ?_, ?_, ?_, ?_, by decide⟩
  · intro lines i out m ind nm h0 h1 h6 h2 h3 h4 h5
    exact stepB_eq (patternA_none_of_opener_at_next h6)
      (patternB_intro h0 h1 h2 h3 h4 h5 h6)
  · intro d h1
    unfold arrayValue
    rw [if_pos (by rw [h1]; simp), if_pos h1]
  · intro d h1 h2
    unfold arrayValue
    rw [if_pos (by rw [h2]; simp), if_neg (by rw [h1]; simp)]
  · intro d h1 h2 h3
    unfold arrayValue
    rw [if_neg (by rw [h1, h2]; simp),
      if_pos (by rcases h3 with h3 | h3 <;> rw [h3] <;> simp)]
  · intro d h1 h2 h3 h4
    unfold arrayValue
    rw [if_neg (by rw [h1, h2]; simp), if_neg (by rw [h3, h4]; simp)]

/-- C2 witness: the step fires as stated on the claim's concrete input at
position 0 with an empty output buffer. -/
theorem claimC2_patternB_witness :
    scanStep [lc "# Initialize as empty array since Brave components have been removed\n",
        lc "y = [\n", lc "]\n", lc "bar_var\n"] ⟨0, [], false⟩
      = ⟨4, [lc "y = bar_var\n"], true⟩ := by
  have h := claimC2_patternB.1
    [lc "# Initialize as empty array since Brave components have been removed\n",
      lc "y = [\n", lc "]\n", lc "bar_var\n"]
    0 [] false (lc "") (lc "y") (by decide) (by decide) (by decide) (by decide) (by decide)
    (by decide) (by decide)
  exact h.trans (by decide)

/-- C3 counterexample: the line `a + b` is non-empty, not a comment, not a
keyword line, not a brace line and not an assignment, yet the scanner does
not collapse `z =` followed by `a + b` (the source excludes every line
matching an identifier followed by `=` or `+`, which also rejects this
non-assignment): the file passes through unchanged and unmodified. -/
theorem claimC3_counterexample :
    fixScan [lc "z =\n", lc "a + b\n"] = ⟨2, [lc "z =\n", lc "a + b\n"], false⟩ ∧
    (fixScan [lc "z =\n", lc "a + b\n"]).out ≠ [lc "z = \"a + b\"\n"] := by
  exact ⟨by decide, by decide⟩

/-- C3 (amended): when the scanner's loop is at position `i > 0`, the
current line strips to an admissible Pattern C dangling value (non-empty,
not a comment, not an `if`/`foreach`/`declare_args` keyword line, not a
brace line, and not starting with an identifier followed by `=` or `+`),
and the previous input line strips to a bare incomplete assignment
`<identifier> =`, the step discards the previously emitted copy of that
incomplete line and emits the completed assignment (value verbatim when
bracketed or quoted, otherwise double-quoted), consuming only the dangling
line; concretely `z =` followed by a quoted literal collapses as stated. -/
theorem claimC3_amended :
    (∀ (lines : List LineT) (i : Nat) (out : List LineT) (m : Bool) (ind nm : LineT),
      0 < i →
      dangling3Ok (stripL (lines.getD i [])) = true →
      incompleteParse (stripL (lines.getD (i - 1) [])) = some (ind, nm) →
      scanStep lines ⟨i, out, m⟩ =
        ⟨i + 1, out.dropLast ++
          [mkAssign ind nm (plainValue (stripL (lines.getD i [])))], true⟩) ∧
    fixScan [lc "z =\n", lc "\"literal\"\n"] = ⟨2, [lc "z = \"literal\"\n"], true⟩ := by
  refine ⟨?_, by decide⟩
  intro lines i out m ind nm hi h3 hp
  exact stepC_eq (patternA_none_of_pat3_false (dangling3Ok_spec h3).2.2.2.2.2.2)
    (patternB_none_of_no_hash (dangling3Ok_spec h3).1) h3 hi hp

/-- C3 witness: the amended step fires as stated at position 1 of the
claim's concrete input, after the incomplete line was copied verbatim. -/
theorem claimC3_amended_witness :
    scanStep [lc "z =\n", lc "\"literal\"\n"] ⟨1, [lc "z =\n"], false⟩
      = ⟨2, [lc "z = \"literal\"\n"], true⟩ := by
  have h := claimC3_amended.1 [lc "z =\n", lc "\"literal\"\n"] 1 [lc "z =\n"] false
    (lc "") (lc "z") (by decide) (by decide) (by decide)
  exact h.trans (by decide)

/-- C4 counterexample: a line beginning with `declare_args` IS consumed as
a dangling value by Pattern A (the source's Patterns A and B exclude only
`if` and `foreach`): on `x = [` / `]` / a `declare_args() {` line, Pattern
A fires, quotes the keyword line into the assignment, and the scanner
reports the file modified. -/
theorem claimC4_counterexample :
    patternAParse [lc "x = [\n", lc "]\n", lc "declare_args() \x7b\n"] 0
      = some (lc "", lc "x", lc "declare_args() \x7b") ∧
    startsWithL (lc "declare_args() \x7b") (lc "declare_args") = true ∧
    fixScan [lc "x = [\n", lc "]\n", lc "declare_args() \x7b\n"]
      = ⟨3, [lc "x = \"declare_args() \x7b\"\n"], true⟩ := by
  exact ⟨by decide, by decide, by decide⟩

/-- C4 (amended): a dangling value accepted by Pattern A or Pattern B never
starts with `if` or `foreach`, and a line accepted by Pattern C's admission
check never starts with `if`, `foreach` or `declare_args`; the exclusion of
`declare_args` holds only for Pattern C. -/
theorem claimC4_amended :
    (∀ (lines : List LineT) (i : Nat) (ind nm d : LineT),
      patternAParse lines i = some (ind, nm, d) →
      startsWithL d (lc "if") = false ∧ startsWithL d (lc "foreach") = false) ∧
    (∀ (lines : List LineT) (i : Nat) (ind nm d : LineT),
      patternBParse lines i = some (ind, nm, d) →
      startsWithL d (lc "if") = false ∧ startsWithL d (lc "foreach") = false) ∧
    (∀ st : LineT, dangling3Ok st = true →
      startsWithL st (lc "if") = false ∧ startsWithL st (lc "foreach") = false ∧
        startsWithL st (lc "declare_args") = false) := by
  refine ⟨?_, ?_, ?_⟩
  · intro lines i ind nm d h
    obtain ⟨-, -, -, hd, -, hdd⟩ := patternA_elim h
    rw [hdd]
    exact ⟨(danglingOk_spec hd).1, (danglingOk_spec hd).2.1⟩
  · intro lines i ind nm d h
    obtain ⟨-, -, -, -, -, hd, -, hdd⟩ := patternB_elim h
    rw [hdd]
    exact ⟨(danglingOk_spec hd).1, (danglingOk_spec hd).2.1⟩
  · intro st h
    exact ⟨(dangling3Ok_spec h).2.1, (dangling3Ok_spec h).2.2.1,
      (dangling3Ok_spec h).2.2.2.1⟩

/-- C4 witness: the amended exclusions evaluated at a concrete Pattern A
fire and at a concrete Pattern C admission check. -/
theorem claimC4_amended_witness :
    (startsWithL (lc "foo") (lc "if") = false ∧
      startsWithL (lc "foo") (lc "foreach") = false) ∧
    (startsWithL (lc "foo") (lc "if") = false ∧
      startsWithL (lc "foo") (lc "foreach") = false ∧
      startsWithL (lc "foo") (lc "declare_args") = false) := by
  refine ⟨?_, claimC4_amended.2.2 (lc "foo") (by decide)⟩
  have h := claimC4_amended.1 [lc "x = [\n", lc "]\n", lc "foo\n"] 0
    (lc "") (lc "x") (lc "foo") (by decide)
  exact h

/-- C5: frame property: if no position of the input admits a pattern fire,
the scan's output is byte-identical to the input and the modified flag (the
scanner's result, which alone decides whether the file is rewritten) is
false; and the modified flag is true exactly when some position admits a
fire. -/
theorem claimC5_frame :
    ∀ lines : List LineT,
      ((∀ j, j < lines.length → firesAt lines j = false) →
        (fixScan lines).out = lines ∧ (fixScan lines).modified = false) ∧
      ((fixScan lines).modified = true ↔
        ∃ j, j < lines.length ∧ firesAt lines j = true) := by
  intro lines
  have hnof : (∀ j, j < lines.length → firesAt lines j = false) →
      (fixScan lines).out = lines ∧ (fixScan lines).modified = false := by
    intro hf
    have h := run_nofire lines lines.length ⟨0, [], false⟩ (by omega)
      (fun j _ hjl => hf j hjl)
    unfold fixScan
    rw [h]
    exact ⟨by simp, rfl⟩
  refine ⟨hnof, ?_, ?_⟩
  · intro hm
    by_contra hne
    have hf : ∀ j, j < lines.length → firesAt lines j = false := by
      intro j hj
      cases hfj : firesAt lines j with
      | false => rfl
      | true => exact absurd ⟨j, hj, hfj⟩ hne
    rw [(hnof hf).2] at hm
    exact Bool.noConfusion hm
  · rintro ⟨j, hj, hfj⟩
    by_contra hm
    have hm' : (fixScan lines).modified = false := by
      cases h : (fixScan lines).modified with
      | false => rfl
      | true => exact absurd h hm
    have hnone := run_visited_nofire lines lines.length ⟨0, [], false⟩ (by omega) hm'
      j (Nat.zero_le j) hj
    rw [hfj] at hnone
    exact Bool.noConfusion hnone

/-- C5 witness: a one-line file with no malformed shape passes through
unchanged and is reported unmodified. -/
theorem claimC5_frame_witness :
    (fixScan [lc "hello\n"]).out = [lc "hello\n"] ∧
      (fixScan [lc "hello\n"]).modified = false :=
  (claimC5_frame [lc "hello\n"]).1 (by decide)

/-- C6: running the scanner a second time on the output of the first run,
for each of the four specified scenarios (Pattern A plain, Pattern A with
an array value, Pattern B, Pattern C), admits no pattern fire at any
position, leaves the lines unchanged, and reports the file unmodified. -/
theorem claimC6_idempotent :
    ((fixScan (fixScan [lc "x = [\n", lc "]\n", lc "foo\n", lc "unrelated\n"]).out).modified
        = false ∧
      (fixScan (fixScan [lc "x = [\n", lc "]\n", lc "foo\n", lc "unrelated\n"]).out).out
        = (fixScan [lc "x = [\n", lc "]\n", lc "foo\n", lc "unrelated\n"]).out ∧
      ∀ j, j < (fixScan [lc "x = [\n", lc "]\n", lc "foo\n", lc "unrelated\n"]).out.length →
        firesAt (fixScan [lc "x = [\n", lc "]\n", lc "foo\n", lc "unrelated\n"]).out j
          = false) ∧
    ((fixScan (fixScan [lc "x = [\n", lc "]\n", lc "[ \"a\", \"b\" ]\n"]).out).modified
        = false ∧
      (fixScan (fixScan [lc "x = [\n", lc "]\n", lc "[ \"a\", \"b\" ]\n"]).out).out
        = (fixScan [lc "x = [\n", lc "]\n", lc "[ \"a\", \"b\" ]\n"]).out ∧
      ∀ j, j < (fixScan [lc "x = [\n", lc "]\n", lc "[ \"a\", \"b\" ]\n"]).out.length →
        firesAt (fixScan [lc "x = [\n", lc "]\n", lc "[ \"a\", \"b\" ]\n"]).out j = false) ∧
    ((fixScan (fixScan
        [lc "# Initialize as empty array since Brave components have been removed\n",
          lc "y = [\n", lc "]\n", lc "bar_var\n"]).out).modified = false ∧
      (fixScan (fixScan
        [lc "# Initialize as empty array since Brave components have been removed\n",
          lc "y = [\n", lc "]\n", lc "bar_var\n"]).out).out
        = (fixScan
            [lc "# Initialize as empty array since Brave components have been removed\n",
              lc "y = [\n", lc "]\n", lc "bar_var\n"]).out ∧
      ∀ j, j < (fixScan
          [lc "# Initialize as empty array since Brave components have been removed\n",
            lc "y = [\n", lc "]\n", lc "bar_var\n"]).out.length →
        firesAt (fixScan
          [lc "# Initialize as empty array since Brave components have been removed\n",
            lc "y = [\n", lc "]\n", lc "bar_var\n"]).out j = false) ∧
    ((fixScan (fixScan [lc "z =\n", lc "\"literal\"\n"]).out).modified = false ∧
      (fixScan (fixScan [lc "z =\n", lc "\"literal\"\n"]).out).out
        = (fixScan [lc "z =\n", lc "\"literal\"\n"]).out ∧
      ∀ j, j < (fixScan [lc "z =\n", lc "\"literal\"\n"]).out.length →
        firesAt (fixScan [lc "z =\n", lc "\"literal\"\n"]).out j = false) := by
  exact ⟨⟨by decide, by decide, by decide⟩, ⟨by decide, by decide, by decide⟩,
    ⟨by decide, by decide, by decide⟩, ⟨by decide, by decide, by decide⟩⟩

/-- C7: input accounting: the instrumented scan (which provably projects to
the plain scan) partitions the input positions `0 .. n-1` exactly once and
in order among its steps, its emitted lines concatenate to exactly the
scanner's output, and every step is either the verbatim copy of a single
input line or a pattern fire consuming two to four input lines and emitting
exactly one line. -/
theorem claimC7_accounting :
    ∀ lines : List LineT,
      joinIdxs (fixScanI lines).segs = List.range lines.length ∧
      joinOut (fixScanI lines).segs = (fixScan lines).out ∧
      ∀ seg ∈ (fixScanI lines).segs, SegOK lines seg := by
  intro lines
  obtain ⟨hinv, hproj⟩ := runI_sim lines lines.length ⟨0, [], false⟩ (IInv_init lines)
  have hifin : (fixScanI lines).i = lines.length :=
    runI_i_final lines lines.length ⟨0, [], false⟩ (Nat.zero_le _) (by omega)
  obtain ⟨hIdx, -, hSeg⟩ := hinv
  refine ⟨?_, ?_, hSeg⟩
  · rw [show joinIdxs (fixScanI lines).segs = List.range (fixScanI lines).i from hIdx,
      hifin]
  · exact (congrArg ScanState.out hproj).symm

/-- C7 witness: on the Pattern A example, the accounting of the first run
consumes positions 0-3 exactly once and its first segment is the Pattern A
fire. -/
theorem claimC7_accounting_witness :
    joinIdxs (fixScanI [lc "x = [\n", lc "]\n", lc "foo\n", lc "unrelated\n"]).segs
      = List.range 4 ∧
    SegOK [lc "x = [\n", lc "]\n", lc "foo\n", lc "unrelated\n"]
      ⟨[3], [lc "unrelated\n"]⟩ := by
  refine ⟨(claimC7_accounting [lc "x = [\n", lc "]\n", lc "foo\n", lc "unrelated\n"]).1, ?_⟩
  exact (claimC7_accounting [lc "x = [\n", lc "]\n", lc "foo\n", lc "unrelated\n"]).2.2
    ⟨[3], [lc "unrelated\n"]⟩ (by decide)

/-- C8: read-failure handling: a file whose read raised (modelled as a
`none` read result) produces no write and a `false` result, and a failing
file in the middle of a batch leaves every other file's processing exactly
as it would have been. -/
theorem claimC8_readFailure :
    fix_malformed_assignments_in_file none = (none, false) ∧
    ∀ pre post : List (Option (List LineT)),
      processFiles (pre ++ none :: post)
        = processFiles pre ++ (none, false) :: processFiles post := by
  refine ⟨rfl, ?_⟩
  intro pre post
  unfold processFiles
  rw [List.map_append, List.map_cons]
  rfl

/-- C8 witness: a concrete batch with a failing file in the middle. -/
theorem claimC8_readFailure_witness :
    processFiles ([some [lc "x = [\n", lc "]\n", lc "foo\n"]] ++ none :: [some [lc "ok\n"]])
      = processFiles [some [lc "x = [\n", lc "]\n", lc "foo\n"]] ++
          (none, false) :: processFiles [some [lc "ok\n"]] :=
  claimC8_readFailure.2 [some [lc "x = [\n", lc "]\n", lc "foo\n"]] [some [lc "ok\n"]]

/-- C9: safety of Pattern C's retroactive pop: at every reachable state of
the scan where Pattern C's fire conditions hold (current line admissible,
previous input line an incomplete assignment), the output buffer is
non-empty and ends with exactly the verbatim copy of input line `i-1`, so
the pop never underflows and discards exactly the incomplete-assignment
line. -/
theorem claimC9_popSafety :
    ∀ (lines : List LineT) (s : ScanState) (p : LineT × LineT),
      Reach lines s → 0 < s.i →
      dangling3Ok (stripL (lines.getD s.i [])) = true →
      incompleteParse (stripL (lines.getD (s.i - 1) [])) = some p →
      s.out ≠ [] ∧ s.out.getLast? = some (lines.getD (s.i - 1) []) := by
  intro lines s p hr hi _ hp
  exact reach_prev_incomplete lines s hr p hi hp

/-- C9 witness: the reachable state just before the Pattern C fire of the
`z =` example has the incomplete line as its only (and last) output line. -/
theorem claimC9_popSafety_witness :
    ([lc "z =\n"] : List LineT) ≠ [] ∧
      ([lc "z =\n"] : List LineT).getLast? = some (lc "z =\n") := by
  have hstep : scanStep [lc "z =\n", lc "\"literal\"\n"] ⟨0, [], false⟩
      = ⟨1, [lc "z =\n"], false⟩ := by decide
  have hreach : Reach [lc "z =\n", lc "\"literal\"\n"] ⟨1, [lc "z =\n"], false⟩ :=
    hstep ▸ Reach.next Reach.init (by decide)
  exact claimC9_popSafety [lc "z =\n", lc "\"literal\"\n"] ⟨1, [lc "z =\n"], false⟩
    (lc "", lc "z") hreach (by decide) (by decide) (by decide)

/-- C10: brace edge case: a stripped line starting with a closing or
opening brace is rejected by Pattern C's admission check but accepted by
the dangling-value check of Patterns A and B; concretely, on the input
`x = [` / `]` / a lone closing brace, Pattern A fires, the brace is quoted
into the assignment, and the file is reported modified. -/
theorem claimC10_braceEdge :
    (∀ st : LineT, startsWithL st [Char.ofNat 125] = true ∨
        startsWithL st [Char.ofNat 123] = true → dangling3Ok st = false) ∧
    (∀ d : LineT, startsWithL d [Char.ofNat 125] = true ∨
        startsWithL d [Char.ofNat 123] = true → danglingOk d = true) ∧
    fixScan [lc "x = [\n", lc "]\n", lc "\x7d\n"]
      = ⟨3, [lc "x = \"\x7d\"\n"], true⟩ := by
  refine ⟨?_, ?_, by decide⟩
  · intro st hd
    rcases hd with hd | hd
    · obtain ⟨r, rfl⟩ := startsWithL_single hd
      exact dangling3Ok_rbrace r
    · obtain ⟨r, rfl⟩ := startsWithL_single hd
      exact dangling3Ok_lbrace r
  · intro d hd
    rcases hd with hd | hd
    · obtain ⟨r, rfl⟩ := startsWithL_single hd
      exact danglingOk_of_nonident_head r (by decide) (by decide) (by decide) (by decide)
    · obtain ⟨r, rfl⟩ := startsWithL_single hd
      exact danglingOk_of_nonident_head r (by decide) (by decide) (by decide) (by decide)

/-- C10 witness: the brace admission checks evaluated on a lone closing
brace. -/
theorem claimC10_braceEdge_witness :
    dangling3Ok (lc "\x7d") = false ∧ danglingOk (lc "\x7d") = true :=
  ⟨claimC10_braceEdge.1 (lc "\x7d") (Or.inl (by decide)),
    claimC10_braceEdge.2.1 (lc "\x7d") (Or.inl (by decide))⟩

end AssignRepair
